import Mathlib

/-!
Verification development for the dynamic task/flow execution engine
specified in `spec.md` of this repository.  The repository's own source
(`src/p102.ipynb`) contains only tutorial flows (`pipeline`,
`letterbox_pipeline`, `count_letters`, `multi_flow`, the infinite-loop
pipeline) that call into the engine; the engine itself (Future, Run
Registry, Dependency Tracker, Task Executor, Flow Engine, Execution
Graph Builder) is not part of the source tree, so it is modelled here
from the specification's words.  The tutorial flows themselves are
embedded from the notebook source as scripts of engine operations, and
`count_letters` is embedded directly as a Lean function.
-/

namespace P102

/-- Run kind: a record represents one execution of a task or of a flow
(spec section 3, Run Record). -/
inductive RunKind where
  | task
  | flow
deriving DecidableEq, Repr

/-- State of a run / its future: spec section 3 gives
state ∈ \x7bPending, Running, Completed, Failed\x7d. -/
inductive RState where
  | pending
  | running
  | completed
  | failed
deriving DecidableEq, Repr

/-- Error taxonomy from spec section 7: `TaskFailed`, `FlowFailed`,
`ResolutionTimeout`, plus the user-level error raised inside a body. -/
inductive ErrKind where
  | userError
  | taskFailed
  | flowFailed
  | resolutionTimeout
deriving DecidableEq, Repr

/-- An error value: its kind, a message, and the chain of run ids that
led to it (spec section 7: failed flows surface the triggering error
with the chain of run ids). -/
structure Err where
  kind : ErrKind
  msg : String
  chain : List Nat
deriving DecidableEq, Repr

/-- Result values flowing through the tutorial pipelines: single
letters, letter boxes (lists of strings), letter-count tables, unit. -/
inductive Value where
  | str (s : String)
  | strList (l : List String)
  | table (t : List (String × Nat))
  | unit
deriving DecidableEq, Repr

/-- Outcome of a run body: a return value or a raised error. -/
inductive Outcome where
  | ok (v : Value)
  | error (e : Err)
deriving DecidableEq, Repr

/-- Modelled from the spec: the Run Record of section 3 (the Run
Registry implementation is absent from `src/`).  Attributes: run id
(unique, globally ordered by creation), kind, name, optional parent run
id, set of dependency run ids, state, and — since a Future is mutated
exactly once at completion and retained with its run — the result value
(present iff Completed) and error (present iff Failed) of the run's
Future are stored on the record as well.  Timestamps carry no
information in this sequential model and are omitted. -/
structure RunRecord where
  id : Nat
  kind : RunKind
  name : String
  parent : Option Nat
  deps : List Nat
  state : RState
  result : Option Value
  error : Option Err
deriving DecidableEq, Repr

/-- Modelled from the spec: one Execution Context frame (spec section
3): the currently active run id and the set of Future ids resolved so
far within that lexical scope. -/
structure Ctx where
  runId : Nat
  resolved : List Nat
deriving DecidableEq, Repr

/-- Modelled from the spec: the engine's shared state (spec section 5:
the Run Registry and the Execution Context stack are the only shared
mutable structures).  The registry is the creation-ordered list of run
records (a record's id is its position); the stack's head is the
innermost context. -/
structure EngineState where
  registry : List RunRecord
  stack : List Ctx
deriving DecidableEq, Repr

/-- The empty engine state before the first top-level flow invocation
(spec section 9: the registry has explicit init on first invocation). -/
def init : EngineState := { registry := [], stack := [] }

/-- Insert a future id into a resolved set, keeping it duplicate-free
(spec section 4.1: recording a resolution is idempotent). -/
def insertIfAbsent (i : Nat) (l : List Nat) : List Nat :=
  if i ∈ l then l else l ++ [i]

/-- Apply `f` to the element at position `i`, if any. -/
def modifyAt (l : List α) (i : Nat) (f : α → α) : List α :=
  match l, i with
  | [], _ => []
  | x :: xs, 0 => f x :: xs
  | x :: xs, n + 1 => x :: modifyAt xs n f

/-- The currently active run id: the innermost context's run (spec
section 3, Execution Context). -/
def activeRun (st : EngineState) : Option Nat :=
  st.stack.head?.map Ctx.runId

/-- The run ids of the active run and its lineage: every context frame
on the stack (spec section 4.3 suppresses self-edges to one's own
lineage). -/
def ancestorIds (st : EngineState) : List Nat :=
  st.stack.map Ctx.runId

/-- The resolved-future set of the innermost context. -/
def topResolved (st : EngineState) : List Nat :=
  match st.stack with
  | [] => []
  | c :: _ => c.resolved

/-- Modelled from the spec: the Dependency Tracker's edge computation
(spec section 4.3): a new run's dependency edge set is the snapshot of
all future ids resolved in the active Execution Context, restricted to
futures not owned by an ancestor run. -/
def depSnapshot (st : EngineState) : List Nat :=
  (topResolved st).filter (fun j => decide (j ∉ ancestorIds st))

/-- Modelled from the spec: Run Registry `create` (spec section 4.2):
appends a new record whose id is the next creation index, with parent
the currently active run and dependency edges from the Dependency
Tracker; the record starts in the created (Pending) state of the run
state machine of spec section 4.5. -/
def createF (st : EngineState) (k : RunKind) (name : String) : EngineState :=
  let r : RunRecord :=
    { id := st.registry.length
      kind := k
      name := name
      parent := activeRun st
      deps := depSnapshot st
      state := .pending
      result := none
      error := none }
  { st with registry := st.registry ++ [r] }

/-- Modelled from the spec: pushing a fresh, empty Execution Context
frame for a run's own lexical scope (spec sections 3 and 4.3).  Pushing
the active run's own id again models the disjoint per-iteration scopes
of section 4.3.  Requires the run to exist. -/
def pushF (st : EngineState) (i : Nat) : Option EngineState :=
  if i < st.registry.length then
    some { st with stack := { runId := i, resolved := [] } :: st.stack }
  else none

/-- Modelled from the spec: the transition from created (Pending) to
Running when the executor begins the body (spec section 4.5 state
machine).  Requires the run to be Pending. -/
def startF (st : EngineState) (i : Nat) : Option EngineState :=
  match st.registry.get? i with
  | some r =>
    if r.state = .pending then
      some { st with registry := modifyAt st.registry i (fun x => { x with state := .running }) }
    else none
  | none => none

/-- Finalization of a single record: Completed with its result, or
Failed with the error re-tagged as `TaskFailed`/`FlowFailed` and the
run's own id prepended to the cause chain (spec sections 4.4 and 7). -/
def finalizeRec (out : Outcome) (r : RunRecord) : RunRecord :=
  match out with
  | .ok v => { r with state := .completed, result := some v }
  | .error e =>
    { r with
      state := .failed
      error := some
        { kind := match r.kind with | .task => .taskFailed | .flow => .flowFailed
          msg := e.msg
          chain := r.id :: e.chain } }

/-- Modelled from the spec: Run Registry `finalize` (spec section 4.2,
exactly-once transition of the active run to Completed/Failed) combined
with popping the run's context frame (spec section 3: popped on
completion).  Requires a Running active run. -/
def finalizeF (st : EngineState) (out : Outcome) : Option EngineState :=
  match st.stack with
  | [] => none
  | c :: rest =>
    match st.registry.get? c.runId with
    | some r =>
      if r.state = .running then
        some { registry := modifyAt st.registry c.runId (finalizeRec out), stack := rest }
      else none
    | none => none

/-- Modelled from the spec: recording a resolution into the active
Execution Context's resolved set (spec section 4.1) — idempotent. -/
def markResolved (st : EngineState) (i : Nat) : EngineState :=
  match st.stack with
  | [] => st
  | c :: rest => { st with stack := { c with resolved := insertIfAbsent i c.resolved } :: rest }

/-- Whether a run state is terminal (Completed or Failed). -/
def isTerminal : RState → Bool
  | .completed => true
  | .failed => true
  | _ => false

/-- The `ResolutionTimeout` failure of spec sections 4.1 / 5 / 7. -/
def resolutionTimeoutErr : Err :=
  { kind := .resolutionTimeout, msg := "resolution timed out", chain := [] }

/-- The outcome carried by a terminal run: its result value, or its
stored (already tagged) failure. -/
def outcomeOf (r : RunRecord) : Outcome :=
  if r.state = .completed then .ok (r.result.getD .unit)
  else .error (r.error.getD resolutionTimeoutErr)

/-- Modelled from the spec: `resolve()` (spec sections 4.1 and 5).  It
blocks the calling logical flow until the owning run is terminal, then
returns the result or re-raises the stored failure, recording the
future's id into the active context.  With a caller-specified timeout,
a call on a run that is not terminal proceeds with a
`ResolutionTimeout` failure and no state change (in this sequential
model no progress can occur while the caller waits, so any finite
timeout expires).  With no timeout and a non-terminal run the call
stays blocked, which the model renders as `none`: no outcome is ever
produced. -/
def resolveT (st : EngineState) (i : Nat) (timeout : Option Nat) :
    Option (EngineState × Outcome) :=
  match st.registry.get? i with
  | none => none
  | some r =>
    if isTerminal r.state then some (markResolved st i, outcomeOf r)
    else
      match timeout with
      | some _ => some (st, .error resolutionTimeoutErr)
      | none => none

/-- A blocking `resolve()` that succeeded: the state effect of
resolution (used as an execution step). -/
def resolveF (st : EngineState) (i : Nat) : Option EngineState :=
  (resolveT st i none).map Prod.fst

/-- Popping a lexical scope frame without finalizing a run: the end of
one loop-iteration scope (spec section 4.3: loop iterations get
disjoint contexts) — the discarded frame's resolved set is dropped. -/
def popScopeF (st : EngineState) : Option EngineState :=
  match st.stack with
  | [] => none
  | _ :: rest => some { st with stack := rest }

/-- The primitive engine operations; an execution of tutorial code is a
sequence of these. -/
inductive Op where
  | create (k : RunKind) (name : String)
  | push (i : Nat)
  | start (i : Nat)
  | finalize (out : Outcome)
  | resolve (i : Nat)
  | popScope
deriving DecidableEq, Repr

/-- One engine step: apply a primitive operation, failing when its
precondition does not hold. -/
def applyOp (op : Op) (st : EngineState) : Option EngineState :=
  match op with
  | .create k n => some (createF st k n)
  | .push i => pushF st i
  | .start i => startF st i
  | .finalize out => finalizeF st out
  | .resolve i => resolveF st i
  | .popScope => popScopeF st

/-- Run a script of operations from a state. -/
def applyOps (ops : List Op) (st : EngineState) : Option EngineState :=
  match ops with
  | [] => some st
  | op :: rest =>
    match applyOp op st with
    | some st1 => applyOps rest st1
    | none => none

/-- The engine's step relation: some primitive operation fires. -/
def Step (s t : EngineState) : Prop :=
  ∃ op, applyOp op s = some t

/-- A state is reachable when some execution starting from the empty
engine state produces it. -/
def Reachable (st : EngineState) : Prop :=
  Relation.ReflTransGen Step init st

/-- The incoming chain links of a run for the Execution Graph Builder:
its parent-nesting edge and its dependency edges (spec section 4.6 and
the glossary: the longest chain of dependency/nesting edges leading to
a run). -/
def runEdges (r : RunRecord) : List Nat :=
  (match r.parent with | some p => [p] | none => []) ++ r.deps

/-- Fuelled longest-incoming-chain computation over a registry. -/
def ringAux (reg : List RunRecord) : Nat → Nat → Nat
  | 0, _ => 0
  | fuel + 1, i =>
    match reg.get? i with
    | none => 0
    | some r => (runEdges r).foldl (fun acc j => Nat.max acc (ringAux reg fuel j + 1)) 0

/-- Modelled from the spec: the Execution Graph Builder's ring index
(spec section 4.6, absent from `src/`): the length of the longest
chain, counting both parent-nesting and dependency edges as links,
leading to the run from any run with no incoming edges.  Since every
edge leads from a strictly earlier run, fuel `i + 1` suffices for run
`i`. -/
def ringIndex (reg : List RunRecord) (i : Nat) : Nat :=
  ringAux reg (i + 1) i

/-- One iteration of the letter-collecting loop
`letter_box.append(get_letter().result())` from the notebook: a fresh
iteration scope on the enclosing flow `scopeId`, one `get_letter` task
run (created, started, finalized with the drawn letter `v`), the
explicit `.result()` resolution, and the end of the iteration scope. -/
def letterIter (scopeId tid : Nat) (v : Value) : List Op :=
  [.push scopeId, .create .task "Get a letter", .push tid, .start tid,
   .finalize (.ok v), .resolve tid, .popScope]

/-- Render a letter value back to its string (for the returned box). -/
def valStr : Value → String
  | .str s => s
  | _ => ""

/-- The `letterbox_pipeline` flow of the notebook, run top-level: ten
`get_letter` task invocations in a loop, each result resolved and
appended, then the flow returns the letter box.  The ten drawn letters
are the external randomness, taken as parameters. -/
def letterboxOps (v0 v1 v2 v3 v4 v5 v6 v7 v8 v9 : Value) : List Op :=
  [.create .flow "Letterbox Flow", .push 0, .start 0]
    ++ letterIter 0 1 v0 ++ letterIter 0 2 v1 ++ letterIter 0 3 v2
    ++ letterIter 0 4 v3 ++ letterIter 0 5 v4 ++ letterIter 0 6 v5
    ++ letterIter 0 7 v6 ++ letterIter 0 8 v7 ++ letterIter 0 9 v8
    ++ letterIter 0 10 v9
    ++ [.finalize (.ok (.strList
        [valStr v0, valStr v1, valStr v2, valStr v3, valStr v4,
         valStr v5, valStr v6, valStr v7, valStr v8, valStr v9]))]

/-- The `letterbox_pipeline` execution with one concrete draw of the
ten random letters. -/
def letterboxRun : List Op :=
  letterboxOps (.str "A") (.str "B") (.str "A") (.str "A") (.str "B")
    (.str "A") (.str "B") (.str "B") (.str "A") (.str "A")

/-- The `count_letters` task body from the notebook source: starts from
the table `\x7b"A": 0, "B": 0\x7d` and bumps `"A"` for each letter equal to
`"A"`, `"B"` otherwise. -/
def incr (m : List (String × Nat)) (k : String) : List (String × Nat) :=
  m.map (fun p => if p.1 = k then (p.1, p.2 + 1) else p)

def count_letters (letterbox : List String) : List (String × Nat) :=
  letterbox.foldl
    (fun counts letter => if letter = "A" then incr counts "A" else incr counts "B")
    [("A", 0), ("B", 0)]

/-- A fixed draw of ten letters for the concrete `multi_flow` run. -/
def tenLetters : List String :=
  ["A", "B", "A", "A", "B", "A", "B", "B", "A", "A"]

/-- The `multi_flow` flow of the notebook, run top-level: the
`letterbox_pipeline` subflow (run 1, with task runs 2–11), whose future
is then passed to the `count_letters` task (implicitly resolved, run
12), whose result is finally resolved and printed. -/
def multiFlowOps : List Op :=
  [.create .flow "Multi-flow!", .push 0, .start 0,
   .create .flow "Letterbox Flow", .push 1, .start 1]
    ++ letterIter 1 2 (.str "A") ++ letterIter 1 3 (.str "B") ++ letterIter 1 4 (.str "A")
    ++ letterIter 1 5 (.str "A") ++ letterIter 1 6 (.str "B") ++ letterIter 1 7 (.str "A")
    ++ letterIter 1 8 (.str "B") ++ letterIter 1 9 (.str "B") ++ letterIter 1 10 (.str "A")
    ++ letterIter 1 11 (.str "A")
    ++ [.finalize (.ok (.strList tenLetters)),
        .resolve 1,
        .create .task "Count letters", .push 12, .start 12,
        .finalize (.ok (.table (count_letters tenLetters))),
        .resolve 12,
        .finalize (.ok .unit)]

/-- The final engine state of the concrete `multi_flow` execution. -/
def multiFlowFinal : EngineState :=
  (applyOps multiFlowOps init).getD init

/-- A flow whose task body raises, with the failed future never
resolved (first failure scenario of spec section 8). -/
def failNoResolveOps : List Op :=
  [.create .flow "Flaky Flow", .push 0, .start 0,
   .create .task "flaky_task", .push 1, .start 1,
   .finalize (.error { kind := .userError, msg := "boom", chain := [] }),
   .finalize (.ok .unit)]

/-- A flow whose task body raises and whose future is then resolved by
the flow, which re-raises the failure out of its own body (second
failure scenario of spec section 8). -/
def failResolveOps : List Op :=
  [.create .flow "Flaky Flow", .push 0, .start 0,
   .create .task "flaky_task", .push 1, .start 1,
   .finalize (.error { kind := .userError, msg := "boom", chain := [] }),
   .resolve 1,
   .finalize (.error { kind := .taskFailed, msg := "boom", chain := [1] })]

/-- A flow that has created a task run which has not yet started (the
task was submitted but no worker picked it up): the state for the
0-duration-timeout scenario of spec section 8. -/
def pendingOps : List Op :=
  [.create .flow "Main Flow", .push 0, .start 0, .create .task "slow_task"]

def pendingState : EngineState :=
  (applyOps pendingOps init).getD init

/-- The `Infinite Loop Flow` pipeline of the notebook after two of its
unboundedly many loop iterations: the flow run never finalizes, so its
future never reaches a terminal state. -/
def infLoopOps : List Op :=
  [.create .flow "Infinite Loop Flow", .push 0, .start 0]
    ++ letterIter 0 1 (.str "A") ++ letterIter 0 2 (.str "B")

def infLoopState : EngineState :=
  (applyOps infLoopOps init).getD init

/-- The number of elements of a letter box equal to `"A"`. -/
def countEqA : List String → Nat
  | [] => 0
  | s :: l => (if s = "A" then 1 else 0) + countEqA l

/-- The number of elements of a letter box not equal to `"A"`. -/
def countNeA : List String → Nat
  | [] => 0
  | s :: l => (if s = "A" then 0 else 1) + countNeA l

/-- Allowed single transitions of a run's (equivalently, its Future's)
state: stay, Pending to Running, or Running to a terminal state. -/
def transOk (a b : RState) : Prop :=
  a = b ∨ (a = .pending ∧ b = .running) ∨
    (a = .running ∧ (b = .completed ∨ b = .failed))

/-- A dependency edge in the registry: run `i` lists run `j` among its
dependency run ids. -/
def depEdge (st : EngineState) (i j : Nat) : Prop :=
  ∃ r, st.registry.get? i = some r ∧ j ∈ r.deps

/-- A flow run created and started, its context pushed. -/
def wStep0 : EngineState :=
  (applyOps [.create .flow "Main Flow", .push 0] init).getD init

/-- The same execution one engine step later: the flow run started. -/
def wStep1 : EngineState :=
  (applyOps [.create .flow "Main Flow", .push 0, .start 0] init).getD init

/-! Basic list lemmas for the helpers above. -/

theorem get?_lt_length : ∀ (l : List α) (i : Nat) (x : α), l.get? i = some x → i < l.length := by
  intro l
  induction l with
  | nil => intro i x h; simp [List.get?] at h
  | cons a l ih =>
    intro i x h
    cases i with
    | zero => simp
    | succ n =>
      simp only [List.get?] at h
      have := ih n x h
      simp [Nat.succ_lt_succ this]

theorem length_modifyAt (f : α → α) : ∀ (l : List α) (i : Nat), (modifyAt l i f).length = l.length := by
  intro l
  induction l with
  | nil => intro i; rfl
  | cons a l ih =>
    intro i
    cases i with
    | zero => rfl
    | succ n => simp [modifyAt, ih n]

theorem get?_modifyAt (f : α → α) :
    ∀ (l : List α) (i j : Nat),
      (modifyAt l i f).get? j = if j = i then (l.get? j).map f else l.get? j := by
  intro l
  induction l with
  | nil => intro i j; simp [modifyAt]
  | cons a l ih =>
    intro i j
    cases i with
    | zero =>
      cases j with
      | zero => simp [modifyAt]
      | succ m => simp [modifyAt]
    | succ n =>
      cases j with
      | zero => simp [modifyAt]
      | succ m =>
        simp only [modifyAt, List.get?]
        rw [ih n m]
        by_cases h : m = n
        · simp [h]
        · simp [h, fun hc => h (Nat.succ_injective hc)]

theorem mem_insertIfAbsent_self (i : Nat) (l : List Nat) : i ∈ insertIfAbsent i l := by
  unfold insertIfAbsent
  split
  · assumption
  · simp

theorem insertIfAbsent_of_mem (i : Nat) (l : List Nat) (h : i ∈ l) :
    insertIfAbsent i l = l := by
  simp [insertIfAbsent, h]

theorem mem_of_insertIfAbsent (i j : Nat) (l : List Nat) (h : j ∈ insertIfAbsent i l) :
    j ∈ l ∨ j = i := by
  unfold insertIfAbsent at h
  split at h
  · exact Or.inl h
  · rcases List.mem_append.mp h with h1 | h1
    · exact Or.inl h1
    · exact Or.inr (List.mem_singleton.mp h1)

theorem nodup_insertIfAbsent (i : Nat) (l : List Nat) (h : l.Nodup) :
    (insertIfAbsent i l).Nodup := by
  unfold insertIfAbsent
  split
  · exact h
  · next hni => simp [List.nodup_append, h, hni]

theorem registry_markResolved (st : EngineState) (i : Nat) :
    (markResolved st i).registry = st.registry := by
  unfold markResolved
  cases st.stack <;> rfl

/-! Well-formedness of reachable engine states. -/

/-- Registry well-formedness: a record's id is its creation index, and
its dependency and parent edges reference strictly earlier runs. -/
def WFreg (reg : List RunRecord) : Prop :=
  ∀ i r, reg.get? i = some r →
    r.id = i ∧ (∀ d ∈ r.deps, d < i) ∧ (∀ p, r.parent = some p → p < i)

/-- Stack well-formedness: every context frame names an existing run
and holds a duplicate-free resolved set of existing runs. -/
def WFstack (st : EngineState) : Prop :=
  ∀ c ∈ st.stack, c.runId < st.registry.length ∧
    (∀ j ∈ c.resolved, j < st.registry.length) ∧ c.resolved.Nodup

def WF (st : EngineState) : Prop := WFreg st.registry ∧ WFstack st

/-! Characterizations of the successful operations. -/

theorem pushF_some_elim (st : EngineState) (i : Nat) (t : EngineState)
    (h : pushF st i = some t) :
    i < st.registry.length ∧ t = { st with stack := { runId := i, resolved := [] } :: st.stack } := by
  unfold pushF at h
  split at h
  · next hi => exact ⟨hi, (Option.some.inj h).symm⟩
  · exact absurd h (by simp)

theorem startF_some_elim (st : EngineState) (i : Nat) (t : EngineState)
    (h : startF st i = some t) :
    ∃ r, st.registry.get? i = some r ∧ r.state = .pending ∧
      t = { st with registry := modifyAt st.registry i (fun x => { x with state := .running }) } := by
  unfold startF at h
  split at h
  · next r heq =>
    split at h
    · next hp => exact ⟨r, heq, hp, (Option.some.inj h).symm⟩
    · exact absurd h (by simp)
  · exact absurd h (by simp)

theorem finalizeF_some_elim (st : EngineState) (out : Outcome) (t : EngineState)
    (h : finalizeF st out = some t) :
    ∃ c rest r, st.stack = c :: rest ∧ st.registry.get? c.runId = some r ∧
      r.state = .running ∧
      t = { registry := modifyAt st.registry c.runId (finalizeRec out), stack := rest } := by
  unfold finalizeF at h
  split at h
  · exact absurd h (by simp)
  · next c rest heqs =>
    split at h
    · next r heqr =>
      split at h
      · next hr => exact ⟨c, rest, r, heqs, heqr, hr, (Option.some.inj h).symm⟩
      · exact absurd h (by simp)
    · exact absurd h (by simp)

theorem resolveT_some_elim (st : EngineState) (i : Nat) (timeout : Option Nat)
    (p : EngineState × Outcome) (h : resolveT st i timeout = some p) :
    ∃ r, st.registry.get? i = some r ∧
      ((isTerminal r.state = true ∧ p = (markResolved st i, outcomeOf r)) ∨
       (isTerminal r.state = false ∧ (∃ d, timeout = some d) ∧
        p = (st, .error resolutionTimeoutErr))) := by
  unfold resolveT at h
  split at h
  · exact absurd h (by simp)
  · next r heq =>
    split at h
    · next ht => exact ⟨r, heq, Or.inl ⟨ht, (Option.some.inj h).symm⟩⟩
    · next ht =>
      split at h
      · next d => exact ⟨r, heq, Or.inr ⟨Bool.not_eq_true _ ▸ (by simpa using ht),
          ⟨d, rfl⟩, (Option.some.inj h).symm⟩⟩
      · exact absurd h (by simp)

theorem resolveF_some_elim (st : EngineState) (i : Nat) (t : EngineState)
    (h : resolveF st i = some t) :
    ∃ r, st.registry.get? i = some r ∧ isTerminal r.state = true ∧ t = markResolved st i := by
  unfold resolveF at h
  match hres : resolveT st i none with
  | none => rw [hres] at h; exact absurd h (by simp)
  | some p =>
    rw [hres] at h
    simp only [Option.map_some'] at h
    obtain rfl := Option.some.inj h
    obtain ⟨r, heq, hc⟩ := resolveT_some_elim st i none p hres
    rcases hc with ⟨ht, rfl⟩ | ⟨_, ⟨d, hd⟩, _⟩
    · exact ⟨r, heq, ht, rfl⟩
    · exact absurd hd (by simp)

theorem popScopeF_some_elim (st : EngineState) (t : EngineState)
    (h : popScopeF st = some t) :
    ∃ c rest, st.stack = c :: rest ∧ t = { st with stack := rest } := by
  unfold popScopeF at h
  split at h
  · exact absurd h (by simp)
  · next c rest heqs => exact ⟨c, rest, heqs, (Option.some.inj h).symm⟩

theorem WF_init : WF init := by
  constructor
  · intro i r hr; simp [init, List.get?] at hr
  · intro c hc; simp [init] at hc

theorem step_WF (s t : EngineState) (hw : WF s) (h : Step s t) : WF t := by
  obtain ⟨op, hop⟩ := h
  obtain ⟨hreg, hstk⟩ := hw
  cases op with
  | create k n =>
    simp only [applyOp, Option.some.injEq] at hop
    subst hop
    constructor
    · intro i r hr
      rcases Nat.lt_trichotomy i s.registry.length with hlt | heq | hgt
      · rw [show (createF s k n).registry = s.registry ++ [_] from rfl,
            List.get?_append hlt] at hr
        exact hreg i r hr
      · subst heq
        rw [show (createF s k n).registry = s.registry ++ [_] from rfl,
            List.get?_concat_length] at hr
        obtain rfl := Option.some.inj hr
        refine ⟨rfl, ?_, ?_⟩
        · intro d hd
          have hd2 : d ∈ topResolved s := List.mem_of_mem_filter hd
          unfold topResolved at hd2
          match hs : s.stack with
          | [] => rw [hs] at hd2; simp at hd2
          | c :: rest =>
            rw [hs] at hd2
            have := hstk c (by rw [hs]; simp)
            exact this.2.1 d hd2
        · intro p hp
          unfold activeRun at hp
          match hs : s.stack with
          | [] => rw [hs] at hp; simp at hp
          | c :: rest =>
            rw [hs] at hp
            simp only [List.head?, Option.map_some'] at hp
            obtain rfl := Option.some.inj hp
            exact (hstk c (by rw [hs]; simp)).1
      · have := get?_lt_length _ i r hr
        have hlen : (createF s k n).registry.length = s.registry.length + 1 := by
          simp [createF]
        omega
    · intro c hc
      have hc2 : c ∈ s.stack := hc
      have := hstk c hc2
      have hlen : (createF s k n).registry.length = s.registry.length + 1 := by
        simp [createF]
      refine ⟨by omega, fun j hj => by have := this.2.1 j hj; omega, this.2.2⟩
  | push i =>
    simp only [applyOp, pushF] at hop
    split at hop
    · next hi =>
      obtain rfl := Option.some.inj hop
      refine ⟨hreg, ?_⟩
      intro c hc
      rcases List.mem_cons.mp hc with rfl | hc2
      · exact ⟨hi, by simp, by simp⟩
      · exact hstk c hc2
    · exact absurd hop (by simp)
  | start i =>
    simp only [applyOp] at hop
    obtain ⟨r, hri, hrp, rfl⟩ := startF_some_elim s i t hop
    constructor
    · intro j rj hj
      simp only at hj
      rw [get?_modifyAt] at hj
      by_cases hji : j = i
      · subst hji
        rw [if_pos rfl, hri] at hj
        simp only [Option.map_some'] at hj
        obtain rfl := Option.some.inj hj
        exact hreg j r hri
      · rw [if_neg hji] at hj
        exact hreg j rj hj
    · intro c hc
      have := hstk c hc
      simp only [length_modifyAt]
      exact this
  | finalize out =>
    simp only [applyOp] at hop
    obtain ⟨c, rest, r, hs, hri, hrr, rfl⟩ := finalizeF_some_elim s out t hop
    constructor
    · intro j rj hj
      simp only at hj
      rw [get?_modifyAt] at hj
      by_cases hji : j = c.runId
      · subst hji
        rw [if_pos rfl, hri] at hj
        simp only [Option.map_some'] at hj
        obtain rfl := Option.some.inj hj
        have hold := hreg c.runId r hri
        have hfix : (finalizeRec out r).id = r.id ∧
            (finalizeRec out r).deps = r.deps ∧
            (finalizeRec out r).parent = r.parent := by
          cases out <;> simp [finalizeRec]
        rw [hfix.1, hfix.2.1, hfix.2.2]
        exact hold
      · rw [if_neg hji] at hj
        exact hreg j rj hj
    · intro c2 hc2
      have := hstk c2 (by rw [hs]; exact List.mem_cons_of_mem c hc2)
      simp only [length_modifyAt]
      exact this
  | resolve i =>
    simp only [applyOp] at hop
    obtain ⟨r, hri, hrt, rfl⟩ := resolveF_some_elim s i t hop
    have hi : i < s.registry.length := get?_lt_length _ i r hri
    refine ⟨by rw [registry_markResolved]; exact hreg, ?_⟩
    intro c hc
    rw [registry_markResolved]
    unfold markResolved at hc
    match hs : s.stack with
    | [] =>
      rw [hs] at hc
      exact hstk c hc
    | c0 :: rest =>
      rw [hs] at hc
      simp only at hc
      rcases List.mem_cons.mp hc with rfl | hc2
      · have h0 := hstk c0 (by rw [hs]; simp)
        refine ⟨h0.1, ?_, nodup_insertIfAbsent i c0.resolved h0.2.2⟩
        intro j hj
        rcases mem_of_insertIfAbsent i j c0.resolved hj with hm | rfl
        · exact h0.2.1 j hm
        · exact hi
      · exact hstk c (by rw [hs]; exact List.mem_cons_of_mem c0 hc2)
  | popScope =>
    simp only [applyOp] at hop
    obtain ⟨c, rest, hs, rfl⟩ := popScopeF_some_elim s t hop
    refine ⟨hreg, ?_⟩
    intro c2 hc2
    exact hstk c2 (by rw [hs]; exact List.mem_cons_of_mem c hc2)

theorem reachable_WF (st : EngineState) (h : Reachable st) : WF st := by
  induction h with
  | refl => exact WF_init
  | tail hsteps hstep ih => exact step_WF _ _ ih hstep

/-! Longest-chain (ring index) lemmas. -/

theorem edges_lt (reg : List RunRecord) (hreg : WFreg reg) (i : Nat) (r : RunRecord)
    (hr : reg.get? i = some r) (j : Nat) (hj : j ∈ runEdges r) : j < i := by
  unfold runEdges at hj
  rcases List.mem_append.mp hj with hp | hd
  · match hpar : r.parent with
    | none => rw [hpar] at hp; simp at hp
    | some p =>
      rw [hpar] at hp
      obtain rfl := List.mem_singleton.mp hp
      exact (hreg i r hr).2.2 j hpar
  · exact (hreg i r hr).2.1 j hd

theorem foldl_ring_congr (g1 g2 : Nat → Nat) :
    ∀ (l : List Nat) (acc : Nat), (∀ j ∈ l, g1 j = g2 j) →
      l.foldl (fun a j => Nat.max a (g1 j + 1)) acc
        = l.foldl (fun a j => Nat.max a (g2 j + 1)) acc := by
  intro l
  induction l with
  | nil => intro acc h; rfl
  | cons x l ih =>
    intro acc h
    simp only [List.foldl_cons]
    rw [h x (by simp)]
    exact ih _ (fun j hj => h j (by simp [hj]))

theorem foldl_ring_le_acc (g : Nat → Nat) :
    ∀ (l : List Nat) (acc : Nat), acc ≤ l.foldl (fun a j => Nat.max a (g j + 1)) acc := by
  intro l
  induction l with
  | nil => intro acc; exact Nat.le_refl acc
  | cons x l ih =>
    intro acc
    simp only [List.foldl_cons]
    exact Nat.le_trans (Nat.le_max_left acc (g x + 1)) (ih _)

theorem foldl_ring_mem (g : Nat → Nat) :
    ∀ (l : List Nat) (acc x : Nat), x ∈ l →
      g x + 1 ≤ l.foldl (fun a j => Nat.max a (g j + 1)) acc := by
  intro l
  induction l with
  | nil => intro acc x h; simp at h
  | cons y l ih =>
    intro acc x h
    rcases List.mem_cons.mp h with rfl | h2
    · simp only [List.foldl_cons]
      exact Nat.le_trans (Nat.le_max_right acc (g x + 1)) (foldl_ring_le_acc g l _)
    · simp only [List.foldl_cons]
      exact ih _ x h2

theorem ringAux_fuel (reg : List RunRecord) (hreg : WFreg reg) :
    ∀ (f1 f2 i : Nat), i < f1 → i < f2 → ringAux reg f1 i = ringAux reg f2 i := by
  intro f1
  induction f1 with
  | zero => intro f2 i h1 h2; omega
  | succ a ih =>
    intro f2 i h1 h2
    cases f2 with
    | zero => omega
    | succ b =>
      simp only [ringAux]
      match hr : reg.get? i with
      | none => rfl
      | some r =>
        apply foldl_ring_congr
        intro j hj
        have hji : j < i := edges_lt reg hreg i r hr j hj
        exact ih b j (by omega) (by omega)

theorem ringIndex_unfold (reg : List RunRecord) (hreg : WFreg reg) (i : Nat) (r : RunRecord)
    (hr : reg.get? i = some r) :
    ringIndex reg i
      = (runEdges r).foldl (fun acc j => Nat.max acc (ringIndex reg j + 1)) 0 := by
  unfold ringIndex
  simp only [ringAux, hr]
  apply foldl_ring_congr
  intro j hj
  have hji : j < i := edges_lt reg hreg i r hr j hj
  exact ringAux_fuel reg hreg i (j + 1) j hji (Nat.lt_succ_self j)

theorem ringIndex_edge_lt (reg : List RunRecord) (hreg : WFreg reg) (i : Nat) (r : RunRecord)
    (hr : reg.get? i = some r) (j : Nat) (hj : j ∈ runEdges r) :
    ringIndex reg j < ringIndex reg i := by
  rw [ringIndex_unfold reg hreg i r hr]
  have := foldl_ring_mem (ringIndex reg) (runEdges r) 0 j hj
  omega

theorem reachable_of_applyOps (ops : List Op) (t : EngineState)
    (h : applyOps ops init = some t) : Reachable t := by
  have gen : ∀ (ops : List Op) (s t : EngineState), Reachable s →
      applyOps ops s = some t → Reachable t := by
    intro ops
    induction ops with
    | nil =>
      intro s t hs h
      simp only [applyOps] at h
      obtain rfl := Option.some.inj h
      exact hs
    | cons op rest ih =>
      intro s t hs h
      simp only [applyOps] at h
      match hop : applyOp op s with
      | none => rw [hop] at h; exact absurd h (by simp)
      | some s1 =>
        rw [hop] at h
        exact ih s1 t (Relation.ReflTransGen.tail hs ⟨op, hop⟩) h
  exact gen ops init t Relation.ReflTransGen.refl h

theorem get?_of_lt : ∀ (l : List α) (i : Nat), i < l.length → ∃ x, l.get? i = some x := by
  intro l
  induction l with
  | nil => intro i h; simp at h
  | cons a l ih =>
    intro i h
    cases i with
    | zero => exact ⟨a, rfl⟩
    | succ n => exact ih n (by simpa using h)

theorem mem_exists_get? (l : List α) (a : α) (h : a ∈ l) : ∃ n, l.get? n = some a := by
  induction l with
  | nil => simp at h
  | cons x l ih =>
    rcases List.mem_cons.mp h with rfl | h2
    · exact ⟨0, rfl⟩
    · obtain ⟨n, hn⟩ := ih h2
      exact ⟨n + 1, hn⟩

theorem markResolved_stack_nil (st : EngineState) (i : Nat) (h : st.stack = []) :
    markResolved st i = st := by
  unfold markResolved
  rw [h]

theorem markResolved_stack_cons (st : EngineState) (i : Nat) (c : Ctx) (rest : List Ctx)
    (h : st.stack = c :: rest) :
    markResolved st i
      = { st with stack := { c with resolved := insertIfAbsent i c.resolved } :: rest } := by
  unfold markResolved
  rw [h]

theorem markResolved_idem (st : EngineState) (i : Nat) :
    markResolved (markResolved st i) i = markResolved st i := by
  match hs : st.stack with
  | [] =>
    rw [markResolved_stack_nil st i hs, markResolved_stack_nil st i hs]
  | c :: rest =>
    rw [markResolved_stack_cons st i c rest hs]
    rw [markResolved_stack_cons _ i { c with resolved := insertIfAbsent i c.resolved } rest rfl]
    simp only [insertIfAbsent_of_mem i _ (mem_insertIfAbsent_self i c.resolved)]

/-! The claims. -/

theorem step_registry (s t : EngineState) (h : Step s t) (i : Nat) (r r2 : RunRecord)
    (h1 : s.registry.get? i = some r) (h2 : t.registry.get? i = some r2) :
    r2 = r ∨ (r.state = .pending ∧ r2 = { r with state := .running }) ∨
      (r.state = .running ∧ ∃ out, r2 = finalizeRec out r) := by
  obtain ⟨op, hop⟩ := h
  cases op with
  | create k n =>
    simp only [applyOp, Option.some.injEq] at hop
    subst hop
    have hi := get?_lt_length _ i r h1
    have h2' : (s.registry ++
        [({ id := s.registry.length, kind := k, name := n, parent := activeRun s,
            deps := depSnapshot s, state := .pending, result := none,
            error := none } : RunRecord)]).get? i = some r2 := h2
    rw [List.get?_append hi, h1] at h2'
    exact Or.inl (Option.some.inj h2').symm
  | push j =>
    simp only [applyOp] at hop
    obtain ⟨hj, rfl⟩ := pushF_some_elim s j t hop
    have h2' : s.registry.get? i = some r2 := h2
    rw [h1] at h2'
    exact Or.inl (Option.some.inj h2').symm
  | start j =>
    simp only [applyOp] at hop
    obtain ⟨rj, hrj, hp, rfl⟩ := startF_some_elim s j t hop
    have h2' : (modifyAt s.registry j
        (fun x => { x with state := .running })).get? i = some r2 := h2
    rw [get?_modifyAt] at h2'
    by_cases hij : i = j
    · subst hij
      rw [if_pos rfl, h1] at h2'
      simp only [Option.map_some'] at h2'
      have hrr : rj = r := Option.some.inj (hrj.symm.trans h1)
      subst hrr
      exact Or.inr (Or.inl ⟨hp, (Option.some.inj h2').symm⟩)
    · rw [if_neg hij, h1] at h2'
      exact Or.inl (Option.some.inj h2').symm
  | finalize out =>
    simp only [applyOp] at hop
    obtain ⟨c, rest, rc, hs, hrc, hrun, rfl⟩ := finalizeF_some_elim s out t hop
    have h2' : (modifyAt s.registry c.runId (finalizeRec out)).get? i = some r2 := h2
    rw [get?_modifyAt] at h2'
    by_cases hij : i = c.runId
    · subst hij
      rw [if_pos rfl, h1] at h2'
      simp only [Option.map_some'] at h2'
      have hrr : rc = r := Option.some.inj (hrc.symm.trans h1)
      subst hrr
      exact Or.inr (Or.inr ⟨hrun, out, (Option.some.inj h2').symm⟩)
    · rw [if_neg hij, h1] at h2'
      exact Or.inl (Option.some.inj h2').symm
  | resolve j =>
    simp only [applyOp] at hop
    obtain ⟨rj, hrj, hterm, rfl⟩ := resolveF_some_elim s j t hop
    have h2' : s.registry.get? i = some r2 := by
      rw [← registry_markResolved s j]; exact h2
    rw [h1] at h2'
    exact Or.inl (Option.some.inj h2').symm
  | popScope =>
    simp only [applyOp] at hop
    obtain ⟨c, rest, hs, rfl⟩ := popScopeF_some_elim s t hop
    have h2' : s.registry.get? i = some r2 := h2
    rw [h1] at h2'
    exact Or.inl (Option.some.inj h2').symm

/-- C5: for every Future (equivalently, its owning run's record), every
state transition taken by an engine step follows the order
Pending → Running → \x7bCompleted, Failed\x7d, and once the state is
terminal no operation changes the record — state, result value and
error included. -/
theorem c5_future_transitions (s t : EngineState) (hst : Step s t) (i : Nat)
    (r r2 : RunRecord) (h1 : s.registry.get? i = some r)
    (h2 : t.registry.get? i = some r2) :
    transOk r.state r2.state ∧ (isTerminal r.state = true → r2 = r) := by
  rcases step_registry s t hst i r r2 h1 h2 with rfl | ⟨hp, rfl⟩ | ⟨hr, out, rfl⟩
  · exact ⟨Or.inl rfl, fun _ => rfl⟩
  · refine ⟨Or.inr (Or.inl ⟨hp, rfl⟩), ?_⟩
    intro ht
    rw [hp] at ht
    simp [isTerminal] at ht
  · refine ⟨Or.inr (Or.inr ⟨hr, ?_⟩), ?_⟩
    · cases out <;> simp [finalizeRec]
    · intro ht
      rw [hr] at ht
      simp [isTerminal] at ht

/-- Witness for C5 at the concrete step that starts the flow run of
`wStep0`: the observed transition is Pending to Running. -/
theorem c5_witness :
    transOk RState.pending RState.running ∧
      (isTerminal RState.pending = true →
        ({ id := 0, kind := .flow, name := "Main Flow", parent := none, deps := [],
           state := .running, result := none, error := none } : RunRecord)
          = { id := 0, kind := .flow, name := "Main Flow", parent := none, deps := [],
              state := .pending, result := none, error := none }) :=
  c5_future_transitions wStep0 wStep1 ⟨Op.start 0, rfl⟩ 0 _ _ rfl rfl

/-- C2: for every run in a reachable registry, the Execution Graph
Builder's ring index is at least the parent's ring index (so in
particular for subflow runs) and strictly greater than the ring index
of every run it depends on. -/
theorem c2_ring_monotone (st : EngineState) (h : Reachable st) (i : Nat)
    (r : RunRecord) (hr : st.registry.get? i = some r) :
    (∀ p, r.parent = some p →
      ringIndex st.registry p ≤ ringIndex st.registry i) ∧
    (∀ d ∈ r.deps, ringIndex st.registry d < ringIndex st.registry i) := by
  have hreg := (reachable_WF st h).1
  constructor
  · intro p hp
    have hmem : p ∈ runEdges r := by
      unfold runEdges
      rw [hp]
      simp
    exact Nat.le_of_lt (ringIndex_edge_lt st.registry hreg i r hr p hmem)
  · intro d hd
    have hmem : d ∈ runEdges r := List.mem_append_right _ hd
    exact ringIndex_edge_lt st.registry hreg i r hr d hmem

/-- Witness for C2 at the `count_letters` run of the concrete
`multi_flow` execution. -/
theorem c2_witness :
    (∀ p, (RunRecord.mk 12 .task "Count letters" (some 0) [1] .completed
        (some (.table (count_letters tenLetters))) none).parent = some p →
      ringIndex multiFlowFinal.registry p ≤ ringIndex multiFlowFinal.registry 12) ∧
    (∀ d ∈ (RunRecord.mk 12 .task "Count letters" (some 0) [1] .completed
        (some (.table (count_letters tenLetters))) none).deps,
      ringIndex multiFlowFinal.registry d < ringIndex multiFlowFinal.registry 12) :=
  c2_ring_monotone multiFlowFinal
    (reachable_of_applyOps multiFlowOps multiFlowFinal rfl) 12 _ rfl

/-- C4: in every reachable state, every dependency edge of a run points
to a run created strictly earlier (no self or forward edges), and
consequently the dependency edge graph is acyclic. -/
theorem c4_dep_edges_acyclic (st : EngineState) (h : Reachable st) :
    (∀ r ∈ st.registry, ∀ d ∈ r.deps, d < r.id) ∧
    (∀ i, ¬ Relation.TransGen (depEdge st) i i) := by
  have hreg := (reachable_WF st h).1
  have hlt : ∀ a b, Relation.TransGen (depEdge st) a b → b < a := by
    intro a b htg
    induction htg with
    | single hstep =>
      obtain ⟨r, hr, hd⟩ := hstep
      exact (hreg a r hr).2.1 _ hd
    | tail htg2 hstep ih =>
      obtain ⟨r, hr, hd⟩ := hstep
      have := (hreg _ r hr).2.1 _ hd
      omega
  constructor
  · intro r hrmem d hd
    obtain ⟨n, hn⟩ := mem_exists_get? st.registry r hrmem
    rw [(hreg n r hn).1]
    exact (hreg n r hn).2.1 d hd
  · intro i hcy
    have := hlt i i hcy
    omega

/-- Witness for C4 at the final state of the concrete `multi_flow`
execution. -/
theorem c4_witness :
    (∀ r ∈ multiFlowFinal.registry, ∀ d ∈ r.deps, d < r.id) ∧
    (∀ i, ¬ Relation.TransGen (depEdge multiFlowFinal) i i) :=
  c4_dep_edges_acyclic multiFlowFinal
    (reachable_of_applyOps multiFlowOps multiFlowFinal rfl)

/-- C6: resolving an already-terminal Future is idempotent: a second
`resolve()` returns the same state and the same outcome (value or
error), resolution never mutates the registry (so no run's dependency
edge set gains a duplicate), and the future's id appears at most once
in the active context's resolved set. -/
theorem c6_resolve_idempotent (st st1 : EngineState) (o : Outcome) (i : Nat)
    (h : Reachable st) (h1 : resolveT st i none = some (st1, o)) :
    resolveT st1 i none = some (st1, o) ∧ st1.registry = st.registry ∧
      (topResolved st1).count i ≤ 1 := by
  obtain ⟨r, hr, hc⟩ := resolveT_some_elim st i none (st1, o) h1
  rcases hc with ⟨ht, hpair⟩ | ⟨_, ⟨d, hd⟩, _⟩
  · obtain ⟨hst1, ho⟩ := Prod.mk.inj hpair
    subst hst1
    subst ho
    refine ⟨?_, registry_markResolved st i, ?_⟩
    · unfold resolveT
      rw [registry_markResolved st i, hr]
      simp only [ht, if_pos]
      rw [markResolved_idem st i]
    · have hstk := (reachable_WF st h).2
      match hs : st.stack with
      | [] =>
        rw [markResolved_stack_nil st i hs]
        unfold topResolved
        rw [hs]
        simp
      | c :: rest =>
        rw [markResolved_stack_cons st i c rest hs]
        have hnd : (insertIfAbsent i c.resolved).Nodup :=
          nodup_insertIfAbsent i c.resolved
            (hstk c (by rw [hs]; simp)).2.2
        have := (List.nodup_iff_count_le_one.mp hnd) i
        simpa [topResolved] using this
  · simp at hd

/-- Witness for C6: resolving the completed task run 5 of the finished
`multi_flow` execution a second time. -/
theorem c6_witness :
    resolveT multiFlowFinal 5 none = some (multiFlowFinal, .ok (.str "A")) ∧
      multiFlowFinal.registry = multiFlowFinal.registry ∧
      (topResolved multiFlowFinal).count 5 ≤ 1 :=
  c6_resolve_idempotent multiFlowFinal multiFlowFinal (.ok (.str "A")) 5
    (reachable_of_applyOps multiFlowOps multiFlowFinal rfl) rfl

/-- C1 (counterexample): in the `letterbox_pipeline` execution the
Execution Graph Builder assigns ring index 0 to the flow run (run 0: no
parent, no dependencies, hence no incoming chain links) and ring index
1 to each task run (one nesting link from the flow), not — as the claim
states — ring index 0 to the tasks and 1 to the flow. -/
theorem c1_counterexample :
    (applyOps letterboxRun init).map
        (fun st => (ringIndex st.registry 0, ringIndex st.registry 1))
      = some (0, 1) ∧
    ((0, 1) ≠ ((1 : Nat), (0 : Nat))) := ⟨rfl, by decide⟩

/-- C1 (amended): the `letterbox_pipeline` execution leaves exactly
eleven runs in the registry — the single flow run 0 and ten task runs,
every task run a child of the flow run with an empty dependency edge
set — and the Execution Graph Builder assigns ring index 1 to all ten
task runs and ring index 0 to the flow run. -/
theorem c1_amended :
    (applyOps letterboxRun init).map (fun st =>
        (st.registry.map (fun r => (r.id, r.kind, r.parent, r.deps)),
         st.registry.map (fun r => ringIndex st.registry r.id)))
      = some
        ([(0, .flow, none, []),
          (1, .task, some 0, []), (2, .task, some 0, []), (3, .task, some 0, []),
          (4, .task, some 0, []), (5, .task, some 0, []), (6, .task, some 0, []),
          (7, .task, some 0, []), (8, .task, some 0, []), (9, .task, some 0, []),
          (10, .task, some 0, [])],
         [0, 1, 1, 1, 1, 1, 1, 1, 1, 1, 1]) := rfl

/-- C3: in the `multi_flow` execution, the run created for
`count_letters` (run 12) has exactly one dependency edge, pointing to
the `letterbox_pipeline` subflow's run id (run 1), and its ring index
is the subflow run's ring index plus one (2 = 1 + 1). -/
theorem c3_count_letters_edge :
    (applyOps multiFlowOps init).map (fun st =>
        ((st.registry.get? 12).map (fun r => (r.kind, r.name, r.parent, r.deps)),
         (st.registry.get? 1).map (fun r => (r.kind, r.name)),
         ringIndex st.registry 12, ringIndex st.registry 1))
      = some
        (some (.task, "Count letters", some 0, [1]),
         some (.flow, "Letterbox Flow"),
         2, 1) := rfl

/-- C7: a raising task body leaves its run (and Future) Failed without
propagating the error at submission time.  The flow of
`failNoResolveOps` never resolves the failed Future and finalizes
Completed; the flow of `failResolveOps` resolves it, the failure
re-raises out of the flow body, and the flow finalizes Failed with a
cause chain `[0, 1]` that includes the failed task's run id 1. -/
theorem c7_lazy_failure :
    ((applyOps failNoResolveOps init).map (fun st =>
        st.registry.map (fun r => (r.kind, r.state, r.error)))
      = some
        [(.flow, .completed, none),
         (.task, .failed, some { kind := .taskFailed, msg := "boom", chain := [1] })]) ∧
    ((applyOps failResolveOps init).map (fun st =>
        st.registry.map (fun r => (r.kind, r.state, r.error)))
      = some
        [(.flow, .failed, some { kind := .flowFailed, msg := "boom", chain := [0, 1] }),
         (.task, .failed, some { kind := .taskFailed, msg := "boom", chain := [1] })]) ∧
    (1 ∈ ([0, 1] : List Nat)) := ⟨rfl, rfl, by decide⟩

/-- C8: calling `resolve()` with a 0-duration timeout on a run that has
not yet started (state Pending) fails with `ResolutionTimeout` and
returns the engine state unchanged — in particular the Run Registry is
identical before and after the call. -/
theorem c8_zero_timeout (st : EngineState) (i : Nat) (r : RunRecord)
    (h1 : st.registry.get? i = some r) (h2 : r.state = .pending) :
    resolveT st i (some 0) = some (st, .error resolutionTimeoutErr) := by
  unfold resolveT
  rw [h1]
  simp [h2, isTerminal]

/-- Witness for C8 at the concrete state `pendingState`, whose task run
1 was created but never started. -/
theorem c8_witness :
    resolveT pendingState 1 (some 0) = some (pendingState, .error resolutionTimeoutErr) :=
  c8_zero_timeout pendingState 1
    { id := 1, kind := .task, name := "slow_task", parent := some 0, deps := [],
      state := .pending, result := none, error := none } rfl rfl

/-- C9 (counterexample): the claim says `resolve()` never blocks
forever even with no caller-specified timeout.  On the
`Infinite Loop Flow` state — whose flow run 0 is Running and, its body
being `while True`, never finalizes — a `resolve()` call with no
timeout produces no outcome at all (`none` is the model's rendering of
a call that stays blocked), while the run is indeed non-terminal. -/
theorem c9_counterexample :
    resolveT infLoopState 0 none = none ∧
      (infLoopState.registry.get? 0).map RunRecord.state = some .running := ⟨rfl, rfl⟩

/-- C9 (amended): a `resolve()` call on an existing run always
terminates when the caller specified a timeout — it returns the
outcome of a terminal run or fails with `ResolutionTimeout`; with no
timeout, a call on a run that is not terminal stays blocked and
produces no outcome. -/
theorem c9_resolve_timeout_total (st : EngineState) (i d : Nat)
    (h : i < st.registry.length) :
    (∃ q, resolveT st i (some d) = some q) ∧
    (∀ r, st.registry.get? i = some r → isTerminal r.state = false →
      resolveT st i none = none) := by
  constructor
  · obtain ⟨r, hr⟩ := get?_of_lt st.registry i h
    simp only [resolveT, hr]
    by_cases ht : isTerminal r.state = true
    · rw [if_pos ht]
      exact ⟨_, rfl⟩
    · rw [if_neg ht]
      exact ⟨_, rfl⟩
  · intro r hr hterm
    unfold resolveT
    rw [hr]
    simp [hterm]

/-- Witness for C9 (amended) at the infinite-loop state: the timeout
call returns, the no-timeout call blocks. -/
theorem c9_witness :
    (∃ q, resolveT infLoopState 0 (some 5) = some q) ∧
    (∀ r, infLoopState.registry.get? 0 = some r → isTerminal r.state = false →
      resolveT infLoopState 0 none = none) :=
  c9_resolve_timeout_total infLoopState 0 5 (by decide)

theorem count_letters_loop : ∀ (l : List String) (a b : Nat),
    l.foldl (fun counts letter =>
        if letter = "A" then incr counts "A" else incr counts "B")
      [("A", a), ("B", b)]
    = [("A", a + countEqA l), ("B", b + countNeA l)] := by
  intro l
  induction l with
  | nil => intro a b; simp [countEqA, countNeA]
  | cons s l ih =>
    intro a b
    by_cases hs : s = "A"
    · subst hs
      have hstep : incr [("A", a), ("B", b)] "A" = [("A", a + 1), ("B", b)] := by
        simp [incr]
      rw [List.foldl_cons, if_pos rfl, hstep, ih]
      simp [countEqA, countNeA]
      omega
    · have hstep : incr [("A", a), ("B", b)] "B" = [("A", a), ("B", b + 1)] := by
        simp [incr]
      rw [List.foldl_cons, if_neg hs, hstep, ih]
      simp [countEqA, countNeA, hs]
      omega

/-- C10: `count_letters` returns a table with exactly the keys `"A"`
and `"B"`, where `"A"` counts the elements equal to `"A"` and `"B"`
counts every element not equal to `"A"`; the two counts sum to the
length of the input list. -/
theorem c10_count_letters (l : List String) :
    count_letters l = [("A", countEqA l), ("B", countNeA l)] ∧
    countEqA l + countNeA l = l.length := by
  constructor
  · have h := count_letters_loop l 0 0
    unfold count_letters
    simpa using h
  · induction l with
    | nil => rfl
    | cons s l ih =>
      simp only [countEqA, countNeA, List.length_cons]
      by_cases hs : s = "A" <;> simp [hs] <;> omega

/-- Witness for C10 at the concrete letter box drawn in the
`multi_flow` execution. -/
theorem c10_witness :
    count_letters tenLetters
        = [("A", countEqA tenLetters), ("B", countNeA tenLetters)] ∧
      countEqA tenLetters + countNeA tenLetters = tenLetters.length :=
  c10_count_letters tenLetters

end P102

